import Mathlib

/-!
# Verification of the JourneyToTheEye star-reachability backend

Shallow embedding of the repository's backend (`src/backend.py`,
`src/backend/backend.py`, `src/api.py`, `src/backend/api.py`) and proofs of
the frozen specification claims.

Modelling conventions:
* Python floats are modelled as rationals (`ℚ`) for the stored coordinates and
  as reals (`ℝ`) for derived Euclidean distances (which involve square roots).
* The scipy `KDTree` is modelled through the contracts of the two query
  operations the code uses: `query_ball_tree(kdtree, r)` returns, per point,
  the indices of all points at Euclidean distance `≤ r`; `query(x, k=100,
  distance_upper_bound=r)` returns the up-to-`k` nearest points within `r`,
  nearest first, padded to exactly `k` entries with (infinite distance,
  index = pointCount) placeholders.
* scipy's p = 2 metric code keeps distances squared and squares the
  radius/upper bound unconditionally, so a negative threshold behaves like its
  absolute value; this comparison is embedded by the decidable predicate
  `reachq r p q` (`dist2 p q ≤ r * r`), proved equivalent to the real-number
  comparison `EuclideanDistance(p, q) ≤ r` for `r ≥ 0` in
  `reachq_iff_euclid_le`.
* Squared distances (`ℚ`) stand in for stored float distances so that the
  operational definitions stay executable; theorems about the actual
  Euclidean distance go through `Real.sqrt`.
-/

/-- A star record: `StarNode` from `backend.py` (id, x, y, z plus the metadata
fields `name` and `magnitude` that `load_stars` always populates). -/
structure StarNode where
  id : Int
  x : ℚ
  y : ℚ
  z : ℚ
  name : String
  magnitude : ℚ
  deriving DecidableEq, Repr

instance : Inhabited StarNode := ⟨⟨0, 0, 0, 0, "", 0⟩⟩

/-- Squared Euclidean distance between two stars (exact, over `ℚ`). -/
def dist2 (p q : StarNode) : ℚ :=
  (p.x - q.x) * (p.x - q.x) + (p.y - q.y) * (p.y - q.y) + (p.z - q.z) * (p.z - q.z)

/-- Euclidean distance between two stars, as a real number. -/
noncomputable def euclid (p q : StarNode) : ℝ :=
  Real.sqrt ((dist2 p q : ℚ) : ℝ)

/-- Decidable embedding of scipy's radius comparison: the p = 2
implementation keeps distances squared and squares the threshold
unconditionally (`r * r`), so a negative threshold behaves like its absolute
value. For `r ≥ 0` this is exactly `EuclideanDistance(p, q) ≤ r`
(`reachq_iff_euclid_le`). -/
def reachq (r : ℚ) (p q : StarNode) : Bool :=
  decide (dist2 p q ≤ r * r)

theorem dist2_nonneg (p q : StarNode) : 0 ≤ dist2 p q := by
  unfold dist2
  have h1 := mul_self_nonneg (p.x - q.x)
  have h2 := mul_self_nonneg (p.y - q.y)
  have h3 := mul_self_nonneg (p.z - q.z)
  linarith

theorem dist2_comm (p q : StarNode) : dist2 p q = dist2 q p := by
  unfold dist2; ring

theorem euclid_nonneg (p q : StarNode) : 0 ≤ euclid p q :=
  Real.sqrt_nonneg _

/-- For a nonnegative threshold `r` the decidable predicate `reachq` agrees
with the real-number comparison `euclid p q ≤ r`. -/
theorem reachq_iff_euclid_le (r : ℚ) (p q : StarNode) (hr : 0 ≤ r) :
    reachq r p q = true ↔ euclid p q ≤ (r : ℝ) := by
  unfold reachq euclid
  rw [decide_eq_true_iff]
  have hr' : (0 : ℝ) ≤ (r : ℝ) := by exact_mod_cast hr
  constructor
  · intro hd
    have hd' : ((dist2 p q : ℚ) : ℝ) ≤ (r : ℝ) * (r : ℝ) := by exact_mod_cast hd
    calc Real.sqrt ((dist2 p q : ℚ) : ℝ) ≤ Real.sqrt ((r : ℝ) * (r : ℝ)) :=
          Real.sqrt_le_sqrt hd'
      _ = (r : ℝ) := Real.sqrt_mul_self hr'
  · intro h
    have hd0 : (0 : ℝ) ≤ ((dist2 p q : ℚ) : ℝ) := by exact_mod_cast dist2_nonneg p q
    have hsq : ((dist2 p q : ℚ) : ℝ) ≤ (r : ℝ) * (r : ℝ) := by
      calc ((dist2 p q : ℚ) : ℝ) = Real.sqrt ((dist2 p q : ℚ) : ℝ) ^ 2 := (Real.sq_sqrt hd0).symm
        _ ≤ (r : ℝ) ^ 2 := by
            apply pow_le_pow_left₀ (Real.sqrt_nonneg _) h
        _ = (r : ℝ) * (r : ℝ) := pow_two (r : ℝ)
    exact_mod_cast hsq

/-- scipy squares the threshold, so a negative radius behaves exactly like
its absolute value. -/
theorem reachq_neg (r : ℚ) (p q : StarNode) : reachq (-r) p q = reachq r p q := by
  unfold reachq
  rw [neg_mul_neg]

/-- `build_graph(nodes, fuel)` from `backend.py` (the executed
`use_kdtree=True` branch): `kdtree.query_ball_tree(kdtree, fuel)` yields, for
each index `i`, the indices of all points within Euclidean distance `fuel`
(self included); the code then removes `i` from its own list
(`graph[i].remove(i)`, i.e. `List.erase`).

For an empty node list the Python code raises inside `KDTree(positions)`
(`np.array([])` is one-dimensional); every claim about `build_graph`
quantifies over indices in `[0, pointCount)` and is therefore unaffected; the
model returns `[]` there. -/
def build_graph (nodes : List StarNode) (fuel : ℚ) : List (List Nat) :=
  (List.range nodes.length).map (fun i =>
    ((List.range nodes.length).filter
      (fun j => reachq fuel (nodes.getD i default) (nodes.getD j default))).erase i)

theorem build_graph_length (nodes : List StarNode) (fuel : ℚ) :
    (build_graph nodes fuel).length = nodes.length := by
  unfold build_graph
  rw [List.length_map, List.length_range]

/-- Membership characterization of the built adjacency structure. -/
theorem mem_build_graph (nodes : List StarNode) (fuel : ℚ) (i j : Nat) :
    j ∈ (build_graph nodes fuel).getD i [] ↔
      i < nodes.length ∧ j < nodes.length ∧ j ≠ i ∧
        reachq fuel (nodes.getD i default) (nodes.getD j default) = true := by
  unfold build_graph
  by_cases hi : i < nodes.length
  · rw [List.getD_eq_getElem?_getD, List.getElem?_map, List.getElem?_range hi]
    simp only [Option.map_some', Option.getD_some]
    have hnodup : ((List.range nodes.length).filter
        (fun j => reachq fuel (nodes.getD i default) (nodes.getD j default))).Nodup :=
      (List.nodup_range _).filter _
    rw [hnodup.mem_erase_iff]
    simp only [List.mem_filter, List.mem_range]
    constructor
    · rintro ⟨hne, hj, hr⟩
      exact ⟨hi, hj, hne, hr⟩
    · rintro ⟨_, hj, hne, hr⟩
      exact ⟨hne, hj, hr⟩
  · have hx : (List.range nodes.length)[i]? = none := by
      rw [List.getElem?_eq_none]
      simpa using hi
    rw [List.getD_eq_getElem?_getD, List.getElem?_map, hx]
    simp only [Option.map_none', Option.getD_none, List.not_mem_nil, false_iff]
    rintro ⟨hi', _⟩
    exact hi hi'

/-- C2 : membership in `build_graph(nodes, fuel)[i]` is exactly
"different index at Euclidean distance at most `fuel`" (boundary inclusive). -/
theorem build_graph_mem_iff (nodes : List StarNode) (fuel : ℚ) (i j : Nat)
    (hf : 0 ≤ fuel) (hi : i < nodes.length) (hj : j < nodes.length) :
    j ∈ (build_graph nodes fuel).getD i [] ↔
      i ≠ j ∧ euclid (nodes.getD i default) (nodes.getD j default) ≤ (fuel : ℝ) := by
  rw [mem_build_graph]
  constructor
  · rintro ⟨_, _, hne, hr⟩
    exact ⟨fun h => hne h.symm, (reachq_iff_euclid_le _ _ _ hf).mp hr⟩
  · rintro ⟨hne, hd⟩
    exact ⟨hi, hj, fun h => hne h.symm, (reachq_iff_euclid_le _ _ _ hf).mpr hd⟩

theorem build_graph_mem_iff_witness :
    ((0 : ℚ) ≤ 5 ∧ 0 < 2 ∧ 1 < 2) ∧
      (1 ∈ (build_graph [⟨0, 0, 0, 0, "", 0⟩, ⟨1, 3, 0, 0, "", 0⟩] 5).getD 0 [] ↔
        0 ≠ 1 ∧ euclid ((([⟨0, 0, 0, 0, "", 0⟩, ⟨1, 3, 0, 0, "", 0⟩] :
            List StarNode)).getD 0 default)
          (([⟨0, 0, 0, 0, "", 0⟩, ⟨1, 3, 0, 0, "", 0⟩] : List StarNode).getD 1 default) ≤
          ((5 : ℚ) : ℝ)) :=
  ⟨⟨by norm_num, by norm_num, by norm_num⟩,
    build_graph_mem_iff [⟨0, 0, 0, 0, "", 0⟩, ⟨1, 3, 0, 0, "", 0⟩] 5 0 1
      (by norm_num) (by norm_num) (by norm_num)⟩

/-- C3 : the adjacency relation produced by `build_graph` is symmetric. -/
theorem build_graph_symm (nodes : List StarNode) (fuel : ℚ) (i j : Nat)
    (hf : 0 ≤ fuel) (hi : i < nodes.length) (hj : j < nodes.length) :
    j ∈ (build_graph nodes fuel).getD i [] ↔ i ∈ (build_graph nodes fuel).getD j [] := by
  rw [mem_build_graph, mem_build_graph]
  have hsym : reachq fuel (nodes.getD i default) (nodes.getD j default) =
      reachq fuel (nodes.getD j default) (nodes.getD i default) := by
    unfold reachq
    rw [dist2_comm]
  constructor
  · rintro ⟨_, _, hne, hr⟩
    exact ⟨hj, hi, fun h => hne h.symm, hsym ▸ hr⟩
  · rintro ⟨_, _, hne, hr⟩
    exact ⟨hi, hj, fun h => hne h.symm, hsym ▸ hr⟩

theorem build_graph_symm_witness :
    ((0 : ℚ) ≤ 5 ∧ 0 < 2 ∧ 1 < 2) ∧
      (1 ∈ (build_graph [⟨0, 0, 0, 0, "", 0⟩, ⟨1, 3, 0, 0, "", 0⟩] 5).getD 0 [] ↔
        0 ∈ (build_graph [⟨0, 0, 0, 0, "", 0⟩, ⟨1, 3, 0, 0, "", 0⟩] 5).getD 1 []) :=
  ⟨⟨by norm_num, by norm_num, by norm_num⟩,
    build_graph_symm [⟨0, 0, 0, 0, "", 0⟩, ⟨1, 3, 0, 0, "", 0⟩] 5 0 1
      (by norm_num) (by norm_num) (by norm_num)⟩

/-- Two stars occupying the same coordinates (distinct ids). -/
def coincidentPair : List StarNode := [⟨0, 0, 0, 0, "", 0⟩, ⟨1, 0, 0, 0, "", 0⟩]

/-- C5 counterexample: with two stars at identical coordinates and `fuel = 0`,
the neighbor list of point `0` is `[1]`, not `[]` — coincident points are at
distance `0 ≤ 0` and stay mutual neighbors, so the graph is not edgeless. -/
theorem build_graph_fuel_zero_counterexample :
    (build_graph coincidentPair 0).getD 0 [] = [1] := by with_unfolding_all decide

/-- C5 (amended): if no two distinct points of the star list occupy the same
coordinates, then `build_graph(nodes, 0)` is edgeless: every neighbor list is
empty. -/
theorem build_graph_fuel_zero_of_distinct (nodes : List StarNode)
    (hdist : ∀ i < nodes.length, ∀ j < nodes.length, i ≠ j →
      dist2 (nodes.getD i default) (nodes.getD j default) ≠ 0) :
    ∀ i, (build_graph nodes 0).getD i [] = [] := by
  intro i
  rw [List.eq_nil_iff_forall_not_mem]
  intro j hj
  rw [mem_build_graph] at hj
  obtain ⟨hi, hjlt, hne, hr⟩ := hj
  unfold reachq at hr
  rw [decide_eq_true_iff] at hr
  have h0 : dist2 (nodes.getD i default) (nodes.getD j default) = 0 :=
    le_antisymm (by simpa using hr) (dist2_nonneg _ _)
  exact hdist i hi j hjlt (fun h => hne h.symm) h0

theorem build_graph_fuel_zero_of_distinct_witness :
    (∀ i < ([⟨0, 0, 0, 0, "", 0⟩, ⟨1, 3, 0, 0, "", 0⟩] : List StarNode).length,
      ∀ j < ([⟨0, 0, 0, 0, "", 0⟩, ⟨1, 3, 0, 0, "", 0⟩] : List StarNode).length, i ≠ j →
      dist2 (([⟨0, 0, 0, 0, "", 0⟩, ⟨1, 3, 0, 0, "", 0⟩] : List StarNode).getD i default)
        (([⟨0, 0, 0, 0, "", 0⟩, ⟨1, 3, 0, 0, "", 0⟩] : List StarNode).getD j default) ≠ 0) ∧
    (∀ i, (build_graph [⟨0, 0, 0, 0, "", 0⟩, ⟨1, 3, 0, 0, "", 0⟩] 0).getD i [] = []) := by
  have h : ∀ i < ([⟨0, 0, 0, 0, "", 0⟩, ⟨1, 3, 0, 0, "", 0⟩] : List StarNode).length,
      ∀ j < ([⟨0, 0, 0, 0, "", 0⟩, ⟨1, 3, 0, 0, "", 0⟩] : List StarNode).length, i ≠ j →
      dist2 (([⟨0, 0, 0, 0, "", 0⟩, ⟨1, 3, 0, 0, "", 0⟩] : List StarNode).getD i default)
        (([⟨0, 0, 0, 0, "", 0⟩, ⟨1, 3, 0, 0, "", 0⟩] : List StarNode).getD j default) ≠ 0 := by
    with_unfolding_all decide
  exact ⟨h, build_graph_fuel_zero_of_distinct _ h⟩

/-- C6 : adjacency grows monotonically with fuel. -/
theorem build_graph_monotone (nodes : List StarNode) (fuel₁ fuel₂ : ℚ) (i j : Nat)
    (h0 : 0 ≤ fuel₁) (h12 : fuel₁ ≤ fuel₂)
    (hj : j ∈ (build_graph nodes fuel₁).getD i []) :
    j ∈ (build_graph nodes fuel₂).getD i [] := by
  rw [mem_build_graph] at hj ⊢
  obtain ⟨hi, hjlt, hne, hr⟩ := hj
  refine ⟨hi, hjlt, hne, ?_⟩
  unfold reachq at hr ⊢
  rw [decide_eq_true_iff] at hr
  rw [decide_eq_true_iff]
  refine le_trans hr ?_
  exact mul_le_mul h12 h12 h0 (le_trans h0 h12)

theorem build_graph_monotone_witness :
    ((0 : ℚ) ≤ 3 ∧ (3 : ℚ) ≤ 5 ∧
        1 ∈ (build_graph [⟨0, 0, 0, 0, "", 0⟩, ⟨1, 3, 0, 0, "", 0⟩] 3).getD 0 []) ∧
      1 ∈ (build_graph [⟨0, 0, 0, 0, "", 0⟩, ⟨1, 3, 0, 0, "", 0⟩] 5).getD 0 [] :=
  ⟨⟨by norm_num, by norm_num, by with_unfolding_all decide⟩,
    build_graph_monotone [⟨0, 0, 0, 0, "", 0⟩, ⟨1, 3, 0, 0, "", 0⟩] 3 5 0 1
      (by norm_num) (by norm_num) (by with_unfolding_all decide)⟩

/-- The candidate list of the scipy nearest-neighbor query: all indices,
sorted by (squared) distance to the query point `q`, restricted to those
within the `distance_upper_bound`. -/
def kdCandidates (nodes : List StarNode) (q : StarNode) (ub : ℚ) : List Nat :=
  ((List.range nodes.length).mergeSort
    (fun i j =>
      decide (dist2 q (nodes.getD i default) ≤ dist2 q (nodes.getD j default)))).filter
    (fun j => reachq ub q (nodes.getD j default))

/-- The scipy call `kdtree.query(position, k, distance_upper_bound)` used by
`get_neighbors`: it returns exactly `k` (distance, index) entries — the
up-to-`k` nearest points within the bound, nearest first, padded with
(infinite distance, index = pointCount) placeholders.  The infinite distance
is modelled by `none`; finite distances are carried as their squares. -/
def kdQuery (nodes : List StarNode) (q : StarNode) (k : Nat) (ub : ℚ) :
    List (Option ℚ × Nat) :=
  ((kdCandidates nodes q ub).take k).map
      (fun j => (some (dist2 q (nodes.getD j default)), j)) ++
    List.replicate (k - ((kdCandidates nodes q ub).take k).length) (none, nodes.length)

/-- `get_neighbors(nodes, kdtree, star_index, fuel)` from `backend.py`: a
`k = 100` nearest-neighbor query bounded by `fuel`, followed by the list
comprehension dropping infinite-distance placeholders and the star itself.
The prebuilt `kdtree` argument of the Python function is determined by
`nodes` (both endpoints build it over the same positions array), so the model
takes `nodes` only. -/
def get_neighbors (nodes : List StarNode) (star_index : Nat) (fuel : ℚ) :
    List (Nat × ℚ) :=
  (kdQuery nodes (nodes.getD star_index default) 100 fuel).filterMap
    (fun e => match e with
      | (none, _) => none
      | (some d, idx) => if idx = star_index then none else some (idx, d))

theorem filterMap_ite_eq_filter_map {β : Type} (si : Nat) (g : Nat → β) :
    ∀ l : List Nat,
      (l.filterMap (fun j => if j = si then none else some (g j))) =
        (l.filter (fun j => decide (j ≠ si))).map g := by
  intro l
  induction l with
  | nil => rfl
  | cons a t ih => by_cases h : a = si <;> simp [h, ih]

/-- Normal form of `get_neighbors`: the placeholders and the query star are
filtered away, the rest is the (take-100) candidate list with its squared
distances. -/
theorem get_neighbors_eq (nodes : List StarNode) (si : Nat) (fuel : ℚ) :
    get_neighbors nodes si fuel =
      ((((kdCandidates nodes (nodes.getD si default) fuel).take 100).filter
          (fun j => decide (j ≠ si))).map
        (fun j => (j, dist2 (nodes.getD si default) (nodes.getD j default)))) := by
  unfold get_neighbors kdQuery
  rw [List.filterMap_append]
  have hrep : ∀ m : Nat,
      (List.replicate m ((none : Option ℚ), nodes.length)).filterMap
        (fun e : Option ℚ × Nat => match e with
          | (none, _) => none
          | (some d, idx) => if idx = si then none else some (idx, d)) = [] := by
    intro m
    induction m with
    | zero => rfl
    | succ m ih => rw [List.replicate_succ, List.filterMap_cons]; exact ih
  rw [hrep, List.append_nil, List.filterMap_map]
  exact filterMap_ite_eq_filter_map si _ _

theorem mem_kdCandidates (nodes : List StarNode) (q : StarNode) (ub : ℚ) (j : Nat) :
    j ∈ kdCandidates nodes q ub ↔
      j < nodes.length ∧ reachq ub q (nodes.getD j default) = true := by
  unfold kdCandidates
  rw [List.mem_filter, (List.mergeSort_perm _ _).mem_iff, List.mem_range]

theorem kdCandidates_sorted (nodes : List StarNode) (q : StarNode) (ub : ℚ) :
    (kdCandidates nodes q ub).Pairwise
      (fun i j => dist2 q (nodes.getD i default) ≤ dist2 q (nodes.getD j default)) := by
  unfold kdCandidates
  have hs := @List.sorted_mergeSort Nat
    (fun i j =>
      decide (dist2 q (nodes.getD i default) ≤ dist2 q (nodes.getD j default)))
    (fun a b c hab hbc => by
      rw [decide_eq_true_iff] at hab hbc ⊢
      exact le_trans hab hbc)
    (fun a b => by
      rcases le_total (dist2 q (nodes.getD a default)) (dist2 q (nodes.getD b default)) with
        h | h
      · rw [Bool.or_eq_true, decide_eq_true_iff]; exact Or.inl h
      · rw [Bool.or_eq_true, decide_eq_true_iff, decide_eq_true_iff]; exact Or.inr h)
    (List.range nodes.length)
  have hs' := hs.imp (fun {a b} h => decide_eq_true_iff.mp h)
  exact hs'.sublist (List.filter_sublist _)

/-- C4 : the neighbor query returns at most 100 entries, sorted by Euclidean
distance nearest-first, never containing the query star itself, with each
returned (squared) distance realizing the exact Euclidean distance to that
neighbor and lying within `fuel`; in particular no infinite-distance
placeholder survives the filter. -/
theorem get_neighbors_spec (nodes : List StarNode) (star_index : Nat) (fuel : ℚ)
    (hsi : star_index < nodes.length) (hf : 0 ≤ fuel) :
    (get_neighbors nodes star_index fuel).length ≤ 100 ∧
    ((get_neighbors nodes star_index fuel).map
      (fun e => Real.sqrt ((e.2 : ℚ) : ℝ))).Sorted (· ≤ ·) ∧
    (∀ e ∈ get_neighbors nodes star_index fuel, e.1 ≠ star_index) ∧
    (∀ e ∈ get_neighbors nodes star_index fuel,
      Real.sqrt ((e.2 : ℚ) : ℝ) =
          euclid (nodes.getD star_index default) (nodes.getD e.1 default) ∧
        Real.sqrt ((e.2 : ℚ) : ℝ) ≤ (fuel : ℝ)) := by
  rw [get_neighbors_eq]
  set qp := nodes.getD star_index default with hqp
  refine ⟨?_, ?_, ?_, ?_⟩
  · rw [List.length_map]
    calc (((kdCandidates nodes qp fuel).take 100).filter
          (fun j => decide (j ≠ star_index))).length
        ≤ ((kdCandidates nodes qp fuel).take 100).length := List.length_filter_le _ _
      _ ≤ 100 := by rw [List.length_take]; exact Nat.min_le_left _ _
  · rw [List.map_map, List.Sorted, List.pairwise_map]
    have hp : (((kdCandidates nodes qp fuel).take 100).filter
        (fun j => decide (j ≠ star_index))).Pairwise
        (fun i j => dist2 qp (nodes.getD i default) ≤ dist2 qp (nodes.getD j default)) := by
      exact (kdCandidates_sorted nodes qp fuel).sublist
        ((List.filter_sublist _).trans (List.take_sublist _ _))
    refine hp.imp ?_
    intro a b h
    apply Real.sqrt_le_sqrt
    exact_mod_cast h
  · intro e he
    rw [List.mem_map] at he
    obtain ⟨j, hj, rfl⟩ := he
    rw [List.mem_filter, decide_eq_true_iff] at hj
    exact hj.2
  · intro e he
    rw [List.mem_map] at he
    obtain ⟨j, hj, rfl⟩ := he
    rw [List.mem_filter] at hj
    have hj' : j ∈ kdCandidates nodes qp fuel := (List.take_sublist _ _).mem hj.1
    rw [mem_kdCandidates] at hj'
    have hle : euclid qp (nodes.getD j default) ≤ (fuel : ℝ) :=
      (reachq_iff_euclid_le _ _ _ hf).mp hj'.2
    exact ⟨rfl, hle⟩

theorem get_neighbors_spec_witness :
    (0 < ([⟨0, 0, 0, 0, "", 0⟩, ⟨1, 3, 0, 0, "", 0⟩] : List StarNode).length ∧
        (0 : ℚ) ≤ 5) ∧
      ((get_neighbors [⟨0, 0, 0, 0, "", 0⟩, ⟨1, 3, 0, 0, "", 0⟩] 0 5).length ≤ 100 ∧
      ((get_neighbors [⟨0, 0, 0, 0, "", 0⟩, ⟨1, 3, 0, 0, "", 0⟩] 0 5).map
        (fun e => Real.sqrt ((e.2 : ℚ) : ℝ))).Sorted (· ≤ ·) ∧
      (∀ e ∈ get_neighbors [⟨0, 0, 0, 0, "", 0⟩, ⟨1, 3, 0, 0, "", 0⟩] 0 5, e.1 ≠ 0) ∧
      (∀ e ∈ get_neighbors [⟨0, 0, 0, 0, "", 0⟩, ⟨1, 3, 0, 0, "", 0⟩] 0 5,
        Real.sqrt ((e.2 : ℚ) : ℝ) =
            euclid (([⟨0, 0, 0, 0, "", 0⟩, ⟨1, 3, 0, 0, "", 0⟩] :
                List StarNode).getD 0 default)
              (([⟨0, 0, 0, 0, "", 0⟩, ⟨1, 3, 0, 0, "", 0⟩] :
                List StarNode).getD e.1 default) ∧
          Real.sqrt ((e.2 : ℚ) : ℝ) ≤ ((5 : ℚ) : ℝ))) :=
  ⟨⟨by norm_num, by norm_num⟩,
    get_neighbors_spec [⟨0, 0, 0, 0, "", 0⟩, ⟨1, 3, 0, 0, "", 0⟩] 0 5
      (by norm_num) (by norm_num)⟩

/-- C10 : placeholder entries of the raw `kdtree.query` call carry the
out-of-range index `pointCount` (paired with an infinite distance), real
entries carry in-range indices, and the infinite-distance filter of
`get_neighbors` removes exactly the placeholders, so every index the caller
sees lies in `[0, pointCount)`. -/
theorem get_neighbors_index_range (nodes : List StarNode) (star_index : Nat) (fuel : ℚ)
    (hsi : star_index < nodes.length) (hf : 0 ≤ fuel) :
    (∀ e ∈ kdQuery nodes (nodes.getD star_index default) 100 fuel,
      (e.1 = none → e.2 = nodes.length) ∧ (e.1 ≠ none → e.2 < nodes.length)) ∧
    (∀ e ∈ get_neighbors nodes star_index fuel, e.1 < nodes.length) := by
  constructor
  · intro e he
    unfold kdQuery at he
    rw [List.mem_append] at he
    rcases he with he | he
    · rw [List.mem_map] at he
      obtain ⟨j, hj, rfl⟩ := he
      have hj' : j ∈ kdCandidates nodes (nodes.getD star_index default) fuel :=
        (List.take_sublist _ _).mem hj
      rw [mem_kdCandidates] at hj'
      exact ⟨fun h => by simp at h, fun _ => hj'.1⟩
    · have := List.eq_of_mem_replicate he
      subst this
      exact ⟨fun _ => rfl, fun h => absurd rfl h⟩
  · intro e he
    rw [get_neighbors_eq, List.mem_map] at he
    obtain ⟨j, hj, rfl⟩ := he
    rw [List.mem_filter] at hj
    have hj' : j ∈ kdCandidates nodes (nodes.getD star_index default) fuel :=
      (List.take_sublist _ _).mem hj.1
    exact ((mem_kdCandidates _ _ _ _).mp hj').1

theorem get_neighbors_index_range_witness :
    (0 < ([⟨0, 0, 0, 0, "", 0⟩, ⟨1, 3, 0, 0, "", 0⟩] : List StarNode).length ∧
        (0 : ℚ) ≤ 5) ∧
      ((∀ e ∈ kdQuery [⟨0, 0, 0, 0, "", 0⟩, ⟨1, 3, 0, 0, "", 0⟩]
          (([⟨0, 0, 0, 0, "", 0⟩, ⟨1, 3, 0, 0, "", 0⟩] : List StarNode).getD 0 default)
          100 5,
        (e.1 = none →
            e.2 = ([⟨0, 0, 0, 0, "", 0⟩, ⟨1, 3, 0, 0, "", 0⟩] : List StarNode).length) ∧
          (e.1 ≠ none →
            e.2 < ([⟨0, 0, 0, 0, "", 0⟩, ⟨1, 3, 0, 0, "", 0⟩] : List StarNode).length)) ∧
      (∀ e ∈ get_neighbors [⟨0, 0, 0, 0, "", 0⟩, ⟨1, 3, 0, 0, "", 0⟩] 0 5,
        e.1 < ([⟨0, 0, 0, 0, "", 0⟩, ⟨1, 3, 0, 0, "", 0⟩] : List StarNode).length)) :=
  ⟨⟨by norm_num, by norm_num⟩,
    get_neighbors_index_range [⟨0, 0, 0, 0, "", 0⟩, ⟨1, 3, 0, 0, "", 0⟩] 0 5
      (by norm_num) (by norm_num)⟩

/-- A CSV data row as `csv.DictReader` hands it to `load_stars`: the textual
fields of one record; `name` and `mag` are `none` when the column is absent
(the code accesses them with `row.get`). -/
structure CsvRow where
  id : String
  x : String
  y : String
  z : String
  name : Option String
  mag : Option String
  deriving DecidableEq, Repr

/-- Conversion of one row into a `StarNode`, parameterized by the Python
numeric parsers (`int(...)`, `float(...)`), which are modelled as partial
functions returning `none` exactly when the Python call raises `ValueError`.
A missing `mag` column defaults to `0` (`float(row.get('mag', 0))`); a
missing `name` defaults to `""`; a present-but-malformed field aborts. -/
def loadRow (pI : String → Option Int) (pF : String → Option ℚ) (row : CsvRow) :
    Except String StarNode :=
  match pI row.id with
  | none => Except.error "ValueError: id"
  | some i =>
    match pF row.x with
    | none => Except.error "ValueError: x"
    | some xv =>
      match pF row.y with
      | none => Except.error "ValueError: y"
      | some yv =>
        match pF row.z with
        | none => Except.error "ValueError: z"
        | some zv =>
          match row.mag with
          | none => Except.ok ⟨i, xv, yv, zv, row.name.getD "", 0⟩
          | some s =>
            match pF s with
            | none => Except.error "ValueError: mag"
            | some m => Except.ok ⟨i, xv, yv, zv, row.name.getD "", m⟩

/-- `load_stars` from `backend.py`: rows are converted in order; the first
field that fails to parse raises, aborting the whole load — nothing read so
far is returned. -/
def load_stars (pI : String → Option Int) (pF : String → Option ℚ) :
    List CsvRow → Except String (List StarNode)
  | [] => Except.ok []
  | row :: rest =>
    match loadRow pI pF row with
    | Except.error e => Except.error e
    | Except.ok star =>
      match load_stars pI pF rest with
      | Except.error e => Except.error e
      | Except.ok stars => Except.ok (star :: stars)

/-- A row one of whose numeric fields (id, x, y, z, or a present mag) fails
to parse. -/
def rowMalformed (pI : String → Option Int) (pF : String → Option ℚ)
    (row : CsvRow) : Bool :=
  (pI row.id).isNone || (pF row.x).isNone || (pF row.y).isNone || (pF row.z).isNone ||
    (match row.mag with
      | none => false
      | some s => (pF s).isNone)

theorem loadRow_error_of_malformed (pI : String → Option Int)
    (pF : String → Option ℚ) (row : CsvRow)
    (h : rowMalformed pI pF row = true) :
    ∃ e, loadRow pI pF row = Except.error e := by
  unfold rowMalformed at h
  unfold loadRow
  cases h1 : pI row.id with
  | none => exact ⟨_, rfl⟩
  | some i =>
    cases h2 : pF row.x with
    | none => exact ⟨_, rfl⟩
    | some xv =>
      cases h3 : pF row.y with
      | none => exact ⟨_, rfl⟩
      | some yv =>
        cases h4 : pF row.z with
        | none => exact ⟨_, rfl⟩
        | some zv =>
          cases h5 : row.mag with
          | none => simp [h1, h2, h3, h4, h5] at h
          | some s =>
            cases h6 : pF s with
            | none =>
              refine ⟨"ValueError: mag", ?_⟩
              simp [h6]
            | some m => simp [h1, h2, h3, h4, h5, h6] at h

/-- C7 : any record sequence containing a row with a malformed numeric field
makes `load_stars` fail the whole load: the result is an error, never a
(partial) dataset. -/
theorem load_stars_malformed_fails (pI : String → Option Int)
    (pF : String → Option ℚ) (rows : List CsvRow)
    (h : ∃ row ∈ rows, rowMalformed pI pF row = true) :
    ∃ e, load_stars pI pF rows = Except.error e := by
  induction rows with
  | nil => simp at h
  | cons row rest ih =>
    rcases h with ⟨r, hr, hmal⟩
    rcases List.mem_cons.mp hr with rfl | hmem
    · obtain ⟨e, he⟩ := loadRow_error_of_malformed pI pF r hmal
      exact ⟨e, by rw [load_stars, he]⟩
    · cases hhead : loadRow pI pF row with
      | error e => exact ⟨e, by rw [load_stars, hhead]⟩
      | ok star =>
        obtain ⟨e, he⟩ := ih ⟨r, hmem, hmal⟩
        exact ⟨e, by rw [load_stars, hhead, he]⟩

/-- Concrete parsers and rows exercising the malformed-field path. -/
def demoParseInt : String → Option Int := fun s => if s = "1" then some 1 else none

def demoParseFloat : String → Option ℚ := fun s => if s = "bad" then none else some 0

def demoRows : List CsvRow := [⟨"1", "0", "0", "bad", none, none⟩]

theorem load_stars_malformed_fails_witness :
    (∃ row ∈ demoRows, rowMalformed demoParseInt demoParseFloat row = true) ∧
      ∃ e, load_stars demoParseInt demoParseFloat demoRows = Except.error e :=
  ⟨by decide, load_stars_malformed_fails demoParseInt demoParseFloat demoRows (by decide)⟩

/-- Endpoint `/stars/{star_id}/neighbors` (`get_star_neighbors` in
`src/api.py`): a 503 when the dataset is not loaded, a 404 when `star_id` is
out of range, then the `get_neighbors` call. No other validation is
performed — in particular `fuel` is forwarded untouched. The HTTP error
status is the `Except.error` value; the `neighbors` field of the JSON reply
is the `Except.ok` value. -/
def get_star_neighbors (star_nodes : Option (List StarNode)) (star_id : Int)
    (fuel : ℚ) : Except Nat (List (Nat × ℚ)) :=
  match star_nodes with
  | none => Except.error 503
  | some nodes =>
    if star_id < 0 ∨ (nodes.length : Int) ≤ star_id then Except.error 404
    else Except.ok (get_neighbors nodes star_id.toNat fuel)

theorem kdCandidates_neg (nodes : List StarNode) (q : StarNode) (fuel : ℚ) :
    kdCandidates nodes q (-fuel) = kdCandidates nodes q fuel := by
  unfold kdCandidates
  apply List.filter_congr
  intro j _
  exact reachq_neg fuel _ _

theorem get_neighbors_neg (nodes : List StarNode) (si : Nat) (fuel : ℚ) :
    get_neighbors nodes si (-fuel) = get_neighbors nodes si fuel := by
  rw [get_neighbors_eq, get_neighbors_eq, kdCandidates_neg]

theorem build_graph_neg (nodes : List StarNode) (fuel : ℚ) :
    build_graph nodes (-fuel) = build_graph nodes fuel := by
  unfold build_graph
  congr 1
  funext i
  congr 1
  apply List.filter_congr
  intro j _
  exact reachq_neg fuel _ _

theorem get_star_neighbors_some (nodes : List StarNode) (star_id : Int) (fuel : ℚ) :
    get_star_neighbors (some nodes) star_id fuel =
      if star_id < 0 ∨ (nodes.length : Int) ≤ star_id then Except.error 404
      else Except.ok (get_neighbors nodes star_id.toNat fuel) := rfl

/-- C8 counterexample: a neighbor query with negative fuel (−1) on a loaded
one-star dataset is not rejected as a caller error; the endpoint reaches
`get_neighbors` and answers 200 with a normal neighbor list (here empty: the
only point within the bound is the query star itself, which the comprehension
filters out). -/
theorem negative_fuel_not_rejected :
    get_star_neighbors (some [⟨0, 0, 0, 0, "", 0⟩]) 0 (-1) = Except.ok [] := by
  rw [get_star_neighbors_some, if_neg (by norm_num)]
  rw [get_neighbors_eq]
  have hnil : (((kdCandidates [⟨0, 0, 0, 0, "", 0⟩]
      (([⟨0, 0, 0, 0, "", 0⟩] : List StarNode).getD ((0 : Int).toNat) default)
      (-1)).take 100).filter (fun j => decide (j ≠ (0 : Int).toNat))) = [] := by
    rw [List.filter_eq_nil_iff]
    intro j hj
    have hj' := (mem_kdCandidates _ _ _ _).mp ((List.take_sublist _ _).mem hj)
    have hj0 : j = 0 := by
      have h1 : j < 1 := by simpa using hj'.1
      omega
    subst hj0
    simp
  rw [hnil]
  rfl

/-- C8 (amended): negative fuel is never rejected at the boundary: the
neighbor endpoint validates only that the dataset is loaded and `star_id` is
in range and then reaches the index, returning a normal ok response; the
path query's graph construction (`build_graph(STAR_NODES, fuel)` in
`djikstra_call`) proceeds with no validation at all. scipy compares squared
distances against the squared bound, so the negative fuel behaves exactly
like its absolute value in both operations. -/
theorem negative_fuel_passthrough (nodes : List StarNode) (star_id : Int)
    (fuel : ℚ) (h0 : 0 ≤ star_id) (hlt : star_id < (nodes.length : Int))
    (hf : fuel < 0) :
    get_star_neighbors (some nodes) star_id fuel =
        Except.ok (get_neighbors nodes star_id.toNat (-fuel)) ∧
      build_graph nodes fuel = build_graph nodes (-fuel) := by
  constructor
  · have hgn := get_neighbors_neg nodes star_id.toNat (-fuel)
    rw [neg_neg] at hgn
    rw [get_star_neighbors_some,
      if_neg (not_or.mpr ⟨not_lt.mpr h0, not_le.mpr hlt⟩), hgn]
  · have hbg := build_graph_neg nodes (-fuel)
    rw [neg_neg] at hbg
    exact hbg

theorem negative_fuel_passthrough_witness :
    ((0 : Int) ≤ 0 ∧ (0 : Int) < (([⟨0, 0, 0, 0, "", 0⟩] : List StarNode).length : Int) ∧
        (-1 : ℚ) < 0) ∧
      (get_star_neighbors (some [⟨0, 0, 0, 0, "", 0⟩]) 0 (-1) =
          Except.ok (get_neighbors [⟨0, 0, 0, 0, "", 0⟩] ((0 : Int)).toNat (-(-1))) ∧
        build_graph [⟨0, 0, 0, 0, "", 0⟩] (-1) =
          build_graph [⟨0, 0, 0, 0, "", 0⟩] (-(-1))) :=
  ⟨⟨by norm_num, by norm_num, by norm_num⟩,
    negative_fuel_passthrough [⟨0, 0, 0, 0, "", 0⟩] 0 (-1)
      (by norm_num) (by norm_num) (by norm_num)⟩

/-- The payload assembled by `build_kdtree_data`. -/
structure KDTreeData where
  positions : List (ℚ × ℚ × ℚ)
  metadata : List (Int × String × ℚ)
  boundsMin : ℚ × ℚ × ℚ
  boundsMax : ℚ × ℚ × ℚ
  count : Nat
  deriving DecidableEq, Repr

/-- Constructing `KDTree(np.array(positions))`: for an empty node list
`np.array([])` is a one-dimensional array and scipy's `KDTree.__init__`
raises `ValueError` (it requires data of shape (n, m)). -/
def KDTree_init (positions : List (ℚ × ℚ × ℚ)) :
    Except String (List (ℚ × ℚ × ℚ)) :=
  if positions.isEmpty then Except.error "data must be 2 dimensions"
  else Except.ok positions

/-- `positions.min(axis=0)`: numpy raises on an empty reduction axis. -/
def npMinAxis0 : List (ℚ × ℚ × ℚ) → Except String (ℚ × ℚ × ℚ)
  | [] => Except.error "zero-size array to reduction operation minimum"
  | p :: rest =>
    Except.ok (rest.foldl
      (fun a b => (min a.1 b.1, min a.2.1 b.2.1, min a.2.2 b.2.2)) p)

/-- `positions.max(axis=0)`: numpy raises on an empty reduction axis. -/
def npMaxAxis0 : List (ℚ × ℚ × ℚ) → Except String (ℚ × ℚ × ℚ)
  | [] => Except.error "zero-size array to reduction operation maximum"
  | p :: rest =>
    Except.ok (rest.foldl
      (fun a b => (max a.1 b.1, max a.2.1 b.2.1, max a.2.2 b.2.2)) p)

/-- `build_kdtree_data(nodes)` from `backend.py`: positions array, k-d tree
construction, per-star metadata, dataset bounds and count. The `name`
fallback `f'Star-{id}'` of the Python dict lookup is dead code here because
`load_stars` always populates `name`; the model keeps the stored field. -/
def build_kdtree_data (nodes : List StarNode) : Except String KDTreeData :=
  match KDTree_init (nodes.map (fun s => (s.x, s.y, s.z))) with
  | Except.error e => Except.error e
  | Except.ok positions =>
    match npMinAxis0 positions, npMaxAxis0 positions with
    | Except.error e, _ => Except.error e
    | _, Except.error e => Except.error e
    | Except.ok bmin, Except.ok bmax =>
      Except.ok ⟨positions, nodes.map (fun s => (s.id, s.name, s.magnitude)),
        bmin, bmax, nodes.length⟩

/-- C9 counterexample: building the spatial index and derived data over an
empty star list is an error (scipy rejects the one-dimensional empty
positions array), not a success that answers queries with empty results. -/
theorem build_kdtree_data_empty_fails :
    build_kdtree_data [] = Except.error "data must be 2 dimensions" := rfl

/-- C9 (amended): building over an empty star list fails with an error;
building over any nonempty star list succeeds (and records the dataset
size). -/
theorem build_kdtree_data_ok_iff (nodes : List StarNode) (h : nodes ≠ []) :
    ∃ d, build_kdtree_data nodes = Except.ok d ∧ d.count = nodes.length := by
  cases nodes with
  | nil => exact absurd rfl h
  | cons s rest =>
    refine ⟨⟨(s.x, s.y, s.z) :: rest.map (fun t => (t.x, t.y, t.z)),
      (s.id, s.name, s.magnitude) :: rest.map (fun t => (t.id, t.name, t.magnitude)),
      (rest.map (fun t => (t.x, t.y, t.z))).foldl
        (fun a b => (min a.1 b.1, min a.2.1 b.2.1, min a.2.2 b.2.2)) (s.x, s.y, s.z),
      (rest.map (fun t => (t.x, t.y, t.z))).foldl
        (fun a b => (max a.1 b.1, max a.2.1 b.2.1, max a.2.2 b.2.2)) (s.x, s.y, s.z),
      rest.length + 1⟩, ?_, rfl⟩
    rfl

theorem build_kdtree_data_ok_iff_witness :
    (([⟨0, 0, 0, 0, "", 0⟩] : List StarNode) ≠ []) ∧
      ∃ d, build_kdtree_data [⟨0, 0, 0, 0, "", 0⟩] = Except.ok d ∧
        d.count = ([⟨0, 0, 0, 0, "", 0⟩] : List StarNode).length :=
  ⟨by simp, build_kdtree_data_ok_iff [⟨0, 0, 0, 0, "", 0⟩] (by simp)⟩

namespace Dijkstra

variable {α : Type} [LinearOrderedAddCommMonoid α]

/-- The mutable state of Dijkstra's algorithm (spec §4.3): tentative
distances (`⊤` = infinity = *unvisited*), parent pointers, and the settled
nodes in the order they were settled. -/
structure DState (α : Type) where
  dist : List (WithTop α)
  parent : List (Option Nat)
  order : List Nat

/-- Edge of an adjacency-list graph. -/
def Edge (g : List (List Nat)) (u v : Nat) : Prop := v ∈ g.getD u []

instance (g : List (List Nat)) (u v : Nat) : Decidable (Edge g u v) := by
  unfold Edge; infer_instance

/-- Walks of the graph: vertex sequences leading from `u` to `v` along
edges. -/
inductive Walk (g : List (List Nat)) : Nat → Nat → List Nat → Prop
  | nil (v : Nat) (hv : v < g.length) : Walk g v v [v]
  | cons {u v : Nat} {p : List Nat} (h : Walk g u v p) (t : Nat) (ht : Edge g v t) :
      Walk g u t (p ++ [t])

/-- Total cost of a vertex sequence: the sum of the edge weights of
consecutive pairs. -/
def pathCost (w : Nat → Nat → α) : List Nat → α
  | [] => 0
  | [_] => 0
  | a :: b :: rest => w a b + pathCost w (b :: rest)

/-- Tentative distance of `v` (spec: infinity for absent entries). -/
def dAt (s : DState α) (v : Nat) : WithTop α := s.dist.getD v ⊤

/-- Parent pointer of `v`. -/
def pAt (s : DState α) (v : Nat) : Option Nat := s.parent.getD v none

/-- Spec §4.3: "If `tentative[u] + weight(u,v) < tentative[v]`, update
`tentative[v]`, record `parent[v] = u`, and push the improved
`(distance, v)`." -/
def relaxOne (w : Nat → Nat → α) (u : Nat) (s : DState α) (v : Nat) : DState α :=
  if dAt s u + (w u v : WithTop α) < dAt s v then
    ⟨s.dist.set v (dAt s u + (w u v : WithTop α)), s.parent.set v (some u), s.order⟩
  else s

/-- Settle `u` and relax all its outgoing edges. -/
def visitNode (w : Nat → Nat → α) (g : List (List Nat)) (s : DState α) (u : Nat) :
    DState α :=
  (g.getD u []).foldl (relaxOne w u) ⟨s.dist, s.parent, s.order ++ [u]⟩

/-- The indices not yet settled. -/
def unvisitedIdx (s : DState α) : List Nat :=
  (List.range s.dist.length).filter (fun i => decide (i ∉ s.order))

/-- First index of minimal tentative distance in `l` — the effect of popping
the min-priority queue, with stale entries skipped (spec §4.3). -/
def argminD (dist : List (WithTop α)) : List Nat → Option Nat
  | [] => none
  | i :: rest =>
    match argminD dist rest with
    | none => some i
    | some j => if dist.getD i ⊤ ≤ dist.getD j ⊤ then some i else some j

/-- The main loop: repeatedly settle an unvisited node of minimal tentative
distance and relax its edges. -/
def dijkstraLoop (w : Nat → Nat → α) (g : List (List Nat)) :
    Nat → DState α → DState α
  | 0, s => s
  | Nat.succ k, s =>
    match argminD s.dist (unvisitedIdx s) with
    | none => s
    | some u => dijkstraLoop w g k (visitNode w g s u)

/-- Spec §4.3: "Initialize tentative distance of `start` to 0, all others to
infinity". -/
def initState (α : Type) [LinearOrderedAddCommMonoid α] (n start : Nat) : DState α :=
  ⟨(List.range n).map (fun i => if i = start then (0 : WithTop α) else ⊤),
   List.replicate n none, []⟩

/-- Spec §4.3: "reconstruct the path by walking `parent` pointers from `goal`
back to `start`" (fuel-bounded; `g.length` steps always suffice). -/
def walkParent (parent : List (Option Nat)) : Nat → Nat → List Nat
  | 0, v => [v]
  | Nat.succ f, v =>
    match parent.getD v none with
    | none => [v]
    | some u => v :: walkParent parent f u

/-- Dijkstra's algorithm over an adjacency-list graph with weight function
`w` (spec §4.3): on exhaustion, failure (`none`) when `tentative[goal]` is
still infinity, otherwise the reversed parent walk together with
`tentative[goal]` as total cost. -/
def dijkstraRun (w : Nat → Nat → α) (g : List (List Nat)) (start goal : Nat) :
    Option (List Nat × α) :=
  let s := dijkstraLoop w g g.length (initState α g.length start)
  if h : dAt s goal = ⊤ then none
  else some ((walkParent s.parent g.length goal).reverse, (dAt s goal).untop h)

end Dijkstra

/-- Edge-weight function of the path engine (spec §4.3: "the edge weight is
the Euclidean distance between the two points"). -/
noncomputable def starDist (nodes : List StarNode) (u v : Nat) : ℝ :=
  euclid (nodes.getD u default) (nodes.getD v default)

/-- Modelled from the spec: `djikstras(nodes, graph, start, goal)` is imported
and called by `src/backend/api.py` (`djikstra_call`) but its definition is
missing from the repository sources; it is modelled from spec §4.3
(PathfindingEngine — Dijkstra): tentative distances initialized to 0 at
`start` and infinity elsewhere, repeated settling of a minimum-tentative
node with relaxation of its edges, edge weight = Euclidean distance between
the two points, failure on an unreachable goal, otherwise the parent-walk
path (reversed) and `tentative[goal]` as total cost. -/
noncomputable def djikstras (nodes : List StarNode) (graph : List (List Nat))
    (start goal : Nat) : Option (List Nat × ℝ) :=
  Dijkstra.dijkstraRun (starDist nodes) graph start goal

namespace Dijkstra

variable {α : Type} [LinearOrderedAddCommMonoid α]

theorem getD_set_self {β : Type} (l : List β) (i : Nat) (a d : β)
    (h : i < l.length) : (l.set i a).getD i d = a := by
  rw [List.getD_eq_getElem?_getD, List.getElem?_set_self h]
  rfl

theorem getD_set_ne {β : Type} (l : List β) (i j : Nat) (a d : β) (h : i ≠ j) :
    (l.set i a).getD j d = l.getD j d := by
  rw [List.getD_eq_getElem?_getD, List.getElem?_set_ne h, ← List.getD_eq_getElem?_getD]

theorem pathCost_append_single (w : Nat → Nat → α) :
    ∀ (p : List Nat) (hp : p ≠ []) (t : Nat),
      pathCost w (p ++ [t]) = pathCost w p + w (p.getLast hp) t
  | [], hp, _ => absurd rfl hp
  | [a], _, t => by
    show w a t + pathCost w [t] = pathCost w [a] + w a t
    show w a t + 0 = 0 + w a t
    exact add_comm (w a t) 0
  | a :: b :: rest, _, t => by
    have ih := pathCost_append_single w (b :: rest) (by simp) t
    show w a b + pathCost w ((b :: rest) ++ [t]) =
      (w a b + pathCost w (b :: rest)) + w ((a :: b :: rest).getLast (by simp)) t
    rw [ih, ← add_assoc]
    congr 2

theorem pathCost_nonneg (w : Nat → Nat → α) (hw : ∀ u v, 0 ≤ w u v) :
    ∀ p, 0 ≤ pathCost w p
  | [] => le_refl 0
  | [_] => le_refl 0
  | a :: b :: rest => by
    show (0 : α) ≤ w a b + pathCost w (b :: rest)
    calc (0 : α) = 0 + 0 := (add_zero 0).symm
      _ ≤ w a b + pathCost w (b :: rest) :=
          add_le_add (hw a b) (pathCost_nonneg w hw (b :: rest))

theorem Walk.ne_nil {g : List (List Nat)} {u v : Nat} {p : List Nat}
    (h : Walk g u v p) : p ≠ [] := by
  induction h with
  | nil hv => simp
  | cons h t ht ih => simp

theorem Walk.head_eq {g : List (List Nat)} {u v : Nat} {p : List Nat}
    (h : Walk g u v p) : p.head? = some u := by
  induction h with
  | nil hv => rfl
  | cons h t ht ih =>
    rename_i p'
    cases p' with
    | nil => exact absurd rfl h.ne_nil
    | cons a rest => simpa using ih

theorem Walk.getLast_eq {g : List (List Nat)} {u v : Nat} {p : List Nat}
    (h : Walk g u v p) : p.getLast? = some v := by
  cases h with
  | nil hv => rfl
  | cons h t ht => simp

theorem Walk.start_lt {g : List (List Nat)} {u v : Nat} {p : List Nat}
    (h : Walk g u v p) : u < g.length := by
  induction h with
  | nil hv => exact hv
  | cons h t ht ih => exact ih

theorem Walk.end_lt {g : List (List Nat)} {u v : Nat} {p : List Nat}
    (hgb : ∀ a b, Edge g a b → b < g.length) (h : Walk g u v p) : v < g.length := by
  cases h with
  | nil hv => exact hv
  | cons h t ht => exact hgb _ _ ht

theorem argminD_eq_none_iff (dist : List (WithTop α)) :
    ∀ l : List Nat, argminD dist l = none ↔ l = [] := by
  intro l
  cases l with
  | nil => simp [argminD]
  | cons a rest =>
    constructor
    · intro h
      exfalso
      cases hrec : argminD dist rest with
      | none =>
        simp only [argminD, hrec] at h
        exact Option.noConfusion h
      | some j =>
        simp only [argminD, hrec] at h
        by_cases hle : dist.getD a ⊤ ≤ dist.getD j ⊤
        · rw [if_pos hle] at h; exact Option.noConfusion h
        · rw [if_neg hle] at h; exact Option.noConfusion h
    · intro h
      exact absurd h (by simp)

theorem argminD_mem (dist : List (WithTop α)) :
    ∀ (l : List Nat) (i : Nat), argminD dist l = some i → i ∈ l := by
  intro l
  induction l with
  | nil => intro i h; simp [argminD] at h
  | cons a rest ih =>
    intro i h
    cases hrec : argminD dist rest with
    | none =>
      simp only [argminD, hrec] at h
      exact List.mem_cons.mpr (Or.inl (Option.some_inj.mp h).symm)
    | some j =>
      simp only [argminD, hrec] at h
      by_cases hle : dist.getD a ⊤ ≤ dist.getD j ⊤
      · rw [if_pos hle] at h
        exact List.mem_cons.mpr (Or.inl (Option.some_inj.mp h).symm)
      · rw [if_neg hle] at h
        rw [← Option.some_inj.mp h]
        exact List.mem_cons.mpr (Or.inr (ih j hrec))

theorem argminD_min (dist : List (WithTop α)) :
    ∀ (l : List Nat) (i : Nat), argminD dist l = some i →
      ∀ k ∈ l, dist.getD i ⊤ ≤ dist.getD k ⊤ := by
  intro l
  induction l with
  | nil => intro i h; simp [argminD] at h
  | cons a rest ih =>
    intro i h k hk
    cases hrec : argminD dist rest with
    | none =>
      have hrest : rest = [] := (argminD_eq_none_iff dist rest).mp hrec
      subst hrest
      simp only [argminD, hrec] at h
      rw [← Option.some_inj.mp h]
      rcases List.mem_singleton.mp hk with rfl
      exact le_refl _
    | some j =>
      simp only [argminD, hrec] at h
      by_cases hle : dist.getD a ⊤ ≤ dist.getD j ⊤
      · rw [if_pos hle] at h
        rw [← Option.some_inj.mp h]
        rcases List.mem_cons.mp hk with rfl | hk'
        · exact le_refl _
        · exact le_trans hle (ih j hrec k hk')
      · rw [if_neg hle] at h
        rw [← Option.some_inj.mp h]
        rcases List.mem_cons.mp hk with rfl | hk'
        · exact le_of_lt (not_le.mp hle)
        · exact ih j hrec k hk'

theorem mem_unvisitedIdx (s : DState α) (i : Nat) :
    i ∈ unvisitedIdx s ↔ i < s.dist.length ∧ i ∉ s.order := by
  unfold unvisitedIdx
  rw [List.mem_filter, List.mem_range, decide_eq_true_iff]

end Dijkstra

namespace Dijkstra

variable {α : Type} [LinearOrderedAddCommMonoid α]

theorem getD_eq_of_length_le {β : Type} (l : List β) (i : Nat) (d : β)
    (h : l.length ≤ i) : l.getD i d = d := by
  rw [List.getD_eq_getElem?_getD, List.getElem?_eq_none h]
  rfl

/-- The loop invariant of Dijkstra's algorithm: tentative distances are
nonnegative, sound (realized by an actual walk), minimal on settled nodes,
all edges out of settled nodes are relaxed, and parent pointers record the
relaxation structure. -/
structure Inv (w : Nat → Nat → α) (g : List (List Nat)) (start : Nat)
    (s : DState α) : Prop where
  hdl : s.dist.length = g.length
  hpl : s.parent.length = g.length
  hnodup : s.order.Nodup
  hmem : ∀ x ∈ s.order, x < g.length
  hstart0 : dAt s start = 0
  hnonneg : ∀ v, 0 ≤ dAt s v
  hsound : ∀ v, v < g.length → dAt s v ≠ ⊤ →
    ∃ p, Walk g start v p ∧ ((pathCost w p : α) : WithTop α) = dAt s v
  hminV : ∀ u ∈ s.order, ∀ p, Walk g start u p →
    dAt s u ≤ ((pathCost w p : α) : WithTop α)
  hrelaxed : ∀ u ∈ s.order, ∀ v, Edge g u v →
    dAt s v ≤ dAt s u + (w u v : WithTop α)
  hparent : ∀ v, v < g.length → dAt s v ≠ ⊤ →
    (pAt s v = none → v = start) ∧
    (∀ u, pAt s v = some u → u ∈ s.order ∧ u < g.length ∧ dAt s u ≠ ⊤ ∧
      Edge g u v ∧ dAt s v = dAt s u + (w u v : WithTop α) ∧
      (v ∈ s.order → s.order.indexOf u < s.order.indexOf v))

/-- Relation between the state before settling `u` and a state reached
during the relaxation fold over `u`'s neighbor list. -/
structure Mid (w : Nat → Nat → α) (g : List (List Nat)) (u : Nat)
    (s : DState α) (t : DState α) : Prop where
  horder : t.order = s.order ++ [u]
  hdl : t.dist.length = s.dist.length
  hpl : t.parent.length = s.parent.length
  hfrozen : ∀ x ∈ s.order ++ [u], dAt t x = dAt s x
  hmono : ∀ v, dAt t v ≤ dAt s v
  hchange : ∀ v, (dAt t v = dAt s v ∧ pAt t v = pAt s v) ∨
    (v ∉ s.order ++ [u] ∧ v < g.length ∧ pAt t v = some u ∧ Edge g u v ∧
      dAt t v = dAt s u + (w u v : WithTop α) ∧ dAt t v < dAt s v)

theorem dAt_relaxOne_of_ne (w : Nat → Nat → α) (u : Nat) (t : DState α)
    (v x : Nat) (h : x ≠ v) : dAt (relaxOne w u t v) x = dAt t x := by
  unfold relaxOne
  by_cases hg : dAt t u + (w u v : WithTop α) < dAt t v
  · rw [if_pos hg]
    exact getD_set_ne _ _ _ _ _ (fun he => h he.symm)
  · rw [if_neg hg]

theorem pAt_relaxOne_of_ne (w : Nat → Nat → α) (u : Nat) (t : DState α)
    (v x : Nat) (h : x ≠ v) : pAt (relaxOne w u t v) x = pAt t x := by
  unfold relaxOne
  by_cases hg : dAt t u + (w u v : WithTop α) < dAt t v
  · rw [if_pos hg]
    exact getD_set_ne _ _ _ _ _ (fun he => h he.symm)
  · rw [if_neg hg]

theorem relaxOne_order (w : Nat → Nat → α) (u : Nat) (t : DState α) (v : Nat) :
    (relaxOne w u t v).order = t.order := by
  unfold relaxOne
  by_cases hg : dAt t u + (w u v : WithTop α) < dAt t v
  · rw [if_pos hg]
  · rw [if_neg hg]

theorem relaxOne_lengths (w : Nat → Nat → α) (u : Nat) (t : DState α) (v : Nat) :
    (relaxOne w u t v).dist.length = t.dist.length ∧
      (relaxOne w u t v).parent.length = t.parent.length := by
  unfold relaxOne
  by_cases hg : dAt t u + (w u v : WithTop α) < dAt t v
  · rw [if_pos hg]
    exact ⟨List.length_set _ _ _, List.length_set _ _ _⟩
  · rw [if_neg hg]
    exact ⟨rfl, rfl⟩

theorem dAt_relaxOne_le (w : Nat → Nat → α) (u : Nat) (t : DState α) (v x : Nat) :
    dAt (relaxOne w u t v) x ≤ dAt t x := by
  by_cases hx : x = v
  · subst hx
    unfold relaxOne
    by_cases hg : dAt t u + (w u x : WithTop α) < dAt t x
    · rw [if_pos hg]
      by_cases hlen : x < t.dist.length
      · show (t.dist.set x _).getD x ⊤ ≤ dAt t x
        rw [getD_set_self _ _ _ _ hlen]
        exact le_of_lt hg
      · have h1 : (t.dist.set x (dAt t u + (w u x : WithTop α))).getD x ⊤ = ⊤ :=
          getD_eq_of_length_le _ _ _ (by rw [List.length_set]; exact not_lt.mp hlen)
        have h2 : dAt t x = ⊤ := getD_eq_of_length_le _ _ _ (not_lt.mp hlen)
        show (t.dist.set x _).getD x ⊤ ≤ dAt t x
        rw [h1, h2]
    · rw [if_neg hg]
  · rw [dAt_relaxOne_of_ne w u t v x hx]

theorem dAt_foldl_relax_le (w : Nat → Nat → α) (u : Nat) :
    ∀ (l : List Nat) (t : DState α) (x : Nat),
      dAt (l.foldl (relaxOne w u) t) x ≤ dAt t x := by
  intro l
  induction l with
  | nil => intro t x; exact le_refl _
  | cons v rest ih =>
    intro t x
    exact le_trans (ih (relaxOne w u t v) x) (dAt_relaxOne_le w u t v x)

theorem mid_step (w : Nat → Nat → α) (g : List (List Nat)) (start u v : Nat)
    (s t : DState α) (hInv : Inv w g start s)
    (hsd : s.dist.length = g.length)
    (hun : u < g.length) (hunv : u ∉ s.order)
    (hF1 : ∀ x ∈ s.order ++ [u], ∀ p, Walk g start x p →
      dAt s x ≤ ((pathCost w p : α) : WithTop α))
    (hgb : ∀ a b, Edge g a b → b < g.length)
    (hmid : Mid w g u s t) (hv : Edge g u v) :
    Mid w g u s (relaxOne w u t v) := by
  have hfu : dAt t u = dAt s u := hmid.hfrozen u (by simp)
  have hvlt : v < g.length := hgb u v hv
  have hvlen : v < t.dist.length := by rw [hmid.hdl, hsd]; exact hvlt
  have hvplen : v < t.parent.length := by
    rw [hmid.hpl, hInv.hpl]; exact hvlt
  by_cases hg : dAt t u + (w u v : WithTop α) < dAt t v
  · -- the guard fires: v is rewritten from u
    have hvnot : v ∉ s.order ++ [u] := by
      intro hvin
      have hfv : dAt t v = dAt s v := hmid.hfrozen v hvin
      rw [hfu, hfv] at hg
      -- dAt s u realizes a walk; extending it contradicts minimality at v
      have hsutop : dAt s u ≠ ⊤ := by
        intro htop
        rw [htop, top_add] at hg
        exact absurd hg not_top_lt
      obtain ⟨p, hp, hpc⟩ := hInv.hsound u hun hsutop
      have hwalkv : Walk g start v (p ++ [v]) := Walk.cons hp v hv
      have hbound : dAt s v ≤ ((pathCost w (p ++ [v]) : α) : WithTop α) :=
        hF1 v hvin (p ++ [v]) hwalkv
      have hlast : p.getLast hp.ne_nil = u := by
        have h1 := hp.getLast_eq
        rw [List.getLast?_eq_getLast p hp.ne_nil] at h1
        exact Option.some_inj.mp h1
      rw [pathCost_append_single w p hp.ne_nil v, hlast, WithTop.coe_add, hpc] at hbound
      exact absurd (lt_of_le_of_lt hbound hg) (lt_irrefl _)
    have horder : (relaxOne w u t v).order = s.order ++ [u] := by
      rw [relaxOne_order]; exact hmid.horder
    refine ⟨horder, ?_, ?_, ?_, ?_, ?_⟩
    · rw [(relaxOne_lengths w u t v).1, hmid.hdl]
    · rw [(relaxOne_lengths w u t v).2, hmid.hpl]
    · intro x hx
      have hxv : x ≠ v := fun he => hvnot (he ▸ hx)
      rw [dAt_relaxOne_of_ne w u t v x hxv]
      exact hmid.hfrozen x hx
    · intro x
      exact le_trans (dAt_relaxOne_le w u t v x) (hmid.hmono x)
    · intro x
      by_cases hxv : x = v
      · subst hxv
        right
        have hdx : dAt (relaxOne w u t x) x = dAt s u + (w u x : WithTop α) := by
          unfold relaxOne
          rw [if_pos hg]
          show (t.dist.set x _).getD x ⊤ = _
          rw [getD_set_self _ _ _ _ hvlen, hfu]
        have hpx : pAt (relaxOne w u t x) x = some u := by
          unfold relaxOne
          rw [if_pos hg]
          show (t.parent.set x _).getD x none = _
          rw [getD_set_self _ _ _ _ hvplen]
        refine ⟨hvnot, hvlt, hpx, hv, hdx, ?_⟩
        rw [hdx, ← hfu]
        exact lt_of_lt_of_le hg (hmid.hmono x)
      · rw [dAt_relaxOne_of_ne w u t v x hxv, pAt_relaxOne_of_ne w u t v x hxv]
        exact hmid.hchange x
  · -- the guard does not fire: nothing changes
    have heq : relaxOne w u t v = t := by
      unfold relaxOne
      rw [if_neg hg]
    rw [heq]
    exact hmid

theorem mid_fold (w : Nat → Nat → α) (g : List (List Nat)) (start u : Nat)
    (s : DState α) (hInv : Inv w g start s)
    (hsd : s.dist.length = g.length)
    (hun : u < g.length) (hunv : u ∉ s.order)
    (hF1 : ∀ x ∈ s.order ++ [u], ∀ p, Walk g start x p →
      dAt s x ≤ ((pathCost w p : α) : WithTop α))
    (hgb : ∀ a b, Edge g a b → b < g.length) :
    ∀ (l : List Nat) (t : DState α), (∀ v ∈ l, Edge g u v) → Mid w g u s t →
      Mid w g u s (l.foldl (relaxOne w u) t) := by
  intro l
  induction l with
  | nil => intro t _ hmid; exact hmid
  | cons v rest ih =>
    intro t hl hmid
    exact ih (relaxOne w u t v) (fun x hx => hl x (List.mem_cons_of_mem v hx))
      (mid_step w g start u v s t hInv hsd hun hunv hF1 hgb hmid
        (hl v (List.mem_cons_self v rest)))

theorem foldl_relax_bound (w : Nat → Nat → α) (g : List (List Nat))
    (start u : Nat) (s : DState α) (hInv : Inv w g start s)
    (hsd : s.dist.length = g.length)
    (hun : u < g.length) (hunv : u ∉ s.order)
    (hF1 : ∀ x ∈ s.order ++ [u], ∀ p, Walk g start x p →
      dAt s x ≤ ((pathCost w p : α) : WithTop α))
    (hgb : ∀ a b, Edge g a b → b < g.length) :
    ∀ (l : List Nat) (t : DState α), (∀ v ∈ l, Edge g u v) → Mid w g u s t →
      ∀ v ∈ l, dAt (l.foldl (relaxOne w u) t) v ≤ dAt s u + (w u v : WithTop α) := by
  intro l
  induction l with
  | nil => intro t _ _ v hv; simp at hv
  | cons v0 rest ih =>
    intro t hl hmid v hv
    have hmid1 : Mid w g u s (relaxOne w u t v0) :=
      mid_step w g start u v0 s t hInv hsd hun hunv hF1 hgb hmid
        (hl v0 (List.mem_cons_self v0 rest))
    rcases List.mem_cons.mp hv with rfl | hv'
    · -- the head: bounded right after its own relaxation, then only decreases
      have hfu : dAt t u = dAt s u := hmid.hfrozen u (by simp)
      have hstep : dAt (relaxOne w u t v) v ≤ dAt s u + (w u v : WithTop α) := by
        unfold relaxOne
        by_cases hg : dAt t u + (w u v : WithTop α) < dAt t v
        · rw [if_pos hg]
          have hvlen : v < t.dist.length := by
            rw [hmid.hdl, hsd]
            exact hgb u v (hl v (List.mem_cons_self v rest))
          show (t.dist.set v _).getD v ⊤ ≤ _
          rw [getD_set_self _ _ _ _ hvlen, hfu]
        · rw [if_neg hg, ← hfu]
          exact not_lt.mp hg
      calc dAt ((v :: rest).foldl (relaxOne w u) t) v
          = dAt (rest.foldl (relaxOne w u) (relaxOne w u t v)) v := rfl
        _ ≤ dAt (relaxOne w u t v) v := dAt_foldl_relax_le w u rest _ v
        _ ≤ dAt s u + (w u v : WithTop α) := hstep
    · exact ih (relaxOne w u t v0)
        (fun x hx => hl x (List.mem_cons_of_mem v0 hx)) hmid1 v hv'

theorem crux (w : Nat → Nat → α) (g : List (List Nat)) (start : Nat)
    (s : DState α) (u : Nat) (hInv : Inv w g start s)
    (hw : ∀ a b, 0 ≤ w a b)
    (hgb : ∀ a b, Edge g a b → b < g.length)
    (hstart : start < g.length)
    (hmin : ∀ k, k < g.length → k ∉ s.order → dAt s u ≤ dAt s k) :
    ∀ x p, Walk g start x p → x ∉ s.order →
      dAt s u ≤ ((pathCost w p : α) : WithTop α) := by
  have main : ∀ a x p, Walk g a x p → start = a → x ∉ s.order →
      dAt s u ≤ ((pathCost w p : α) : WithTop α) := by
    intro a x p hwalk
    induction hwalk with
    | nil hv =>
      intro ha hx
      subst ha
      have h1 : dAt s u ≤ dAt s start := hmin start hstart hx
      rw [hInv.hstart0] at h1
      calc dAt s u ≤ (0 : WithTop α) := h1
        _ = ((0 : α) : WithTop α) := WithTop.coe_zero.symm
        _ = ((pathCost w [start] : α) : WithTop α) := rfl
    | cons h t ht ih =>
      intro ha hx
      subst ha
      rename_i v' p'
      have hcost : pathCost w (p' ++ [t]) = pathCost w p' + w v' t := by
        have hlast : p'.getLast h.ne_nil = v' := by
          have h1 := h.getLast_eq
          rw [List.getLast?_eq_getLast p' h.ne_nil] at h1
          exact Option.some_inj.mp h1
        rw [pathCost_append_single w p' h.ne_nil t, hlast]
      by_cases hv' : v' ∈ s.order
      · have ht' : t < g.length := hgb _ _ ht
        have h1 : dAt s u ≤ dAt s t := hmin t ht' hx
        have h2 : dAt s t ≤ dAt s v' + (w v' t : WithTop α) :=
          hInv.hrelaxed v' hv' t ht
        have h3 : dAt s v' ≤ ((pathCost w p' : α) : WithTop α) := hInv.hminV v' hv' p' h
        calc dAt s u ≤ dAt s v' + (w v' t : WithTop α) := le_trans h1 h2
          _ ≤ ((pathCost w p' : α) : WithTop α) + (w v' t : WithTop α) :=
              add_le_add_right h3 _
          _ = ((pathCost w p' + w v' t : α) : WithTop α) := (WithTop.coe_add _ _).symm
          _ = ((pathCost w (p' ++ [t]) : α) : WithTop α) := by rw [hcost]
      · have h1 := ih rfl hv'
        have h2 : (pathCost w p' : α) ≤ pathCost w (p' ++ [t]) := by
          rw [hcost]
          calc pathCost w p' = pathCost w p' + 0 := (add_zero _).symm
            _ ≤ pathCost w p' + w v' t := add_le_add_left (hw v' t) _
        exact le_trans h1 (by exact_mod_cast WithTop.coe_le_coe.mpr h2)
  intro x p hwalk hx
  exact main start x p hwalk rfl hx

end Dijkstra

namespace Dijkstra

variable {α : Type} [LinearOrderedAddCommMonoid α]

theorem coe_w_nonneg (w : Nat → Nat → α) (hw : ∀ a b, 0 ≤ w a b) (a b : Nat) :
    (0 : WithTop α) ≤ ((w a b : α) : WithTop α) := by
  rw [← WithTop.coe_zero]
  exact WithTop.coe_le_coe.mpr (hw a b)

theorem inv_visit (w : Nat → Nat → α) (g : List (List Nat)) (start u : Nat)
    (s : DState α) (hInv : Inv w g start s)
    (hw : ∀ a b, 0 ≤ w a b)
    (hgb : ∀ a b, Edge g a b → b < g.length)
    (hstart : start < g.length)
    (hargmin : argminD s.dist (unvisitedIdx s) = some u) :
    Inv w g start (visitNode w g s u) ∧
      (visitNode w g s u).order = s.order ++ [u] := by
  have humem : u ∈ unvisitedIdx s := argminD_mem _ _ _ hargmin
  rw [mem_unvisitedIdx] at humem
  have hun : u < g.length := by rw [← hInv.hdl]; exact humem.1
  have hunv : u ∉ s.order := humem.2
  have hmin : ∀ k, k < g.length → k ∉ s.order → dAt s u ≤ dAt s k := by
    intro k hk hkv
    exact argminD_min _ _ _ hargmin k
      (by rw [mem_unvisitedIdx]; exact ⟨by rw [hInv.hdl]; exact hk, hkv⟩)
  have hcrux := crux w g start s u hInv hw hgb hstart hmin
  have hF1 : ∀ x ∈ s.order ++ [u], ∀ p, Walk g start x p →
      dAt s x ≤ ((pathCost w p : α) : WithTop α) := by
    intro x hx p hp
    rcases List.mem_append.mp hx with hx' | hx'
    · exact hInv.hminV x hx' p hp
    · rcases List.mem_singleton.mp hx' with rfl
      exact hcrux x p hp hunv
  have hmid0 : Mid w g u s ⟨s.dist, s.parent, s.order ++ [u]⟩ := by
    refine ⟨rfl, rfl, rfl, ?_, ?_, ?_⟩
    · intro x _; rfl
    · intro v; exact le_refl _
    · intro v; exact Or.inl ⟨rfl, rfl⟩
  have hmid : Mid w g u s (visitNode w g s u) := by
    unfold visitNode
    exact mid_fold w g start u s hInv hInv.hdl hun hunv hF1 hgb (g.getD u [])
      ⟨s.dist, s.parent, s.order ++ [u]⟩ (fun v hv => hv) hmid0
  have hbound : ∀ v ∈ g.getD u [],
      dAt (visitNode w g s u) v ≤ dAt s u + ((w u v : α) : WithTop α) := by
    unfold visitNode
    intro v hv
    exact foldl_relax_bound w g start u s hInv hInv.hdl hun hunv hF1 hgb
      (g.getD u []) ⟨s.dist, s.parent, s.order ++ [u]⟩ (fun x hx => hx) hmid0 v hv
  have hfrozu : dAt (visitNode w g s u) u = dAt s u := hmid.hfrozen u (by simp)
  refine ⟨⟨?_, ?_, ?_, ?_, ?_, ?_, ?_, ?_, ?_, ?_⟩, hmid.horder⟩
  · rw [hmid.hdl]; exact hInv.hdl
  · rw [hmid.hpl]; exact hInv.hpl
  · rw [hmid.horder, List.nodup_append]
    exact ⟨hInv.hnodup, List.nodup_singleton u,
      fun a ha hb => hunv (List.mem_singleton.mp hb ▸ ha)⟩
  · intro x hx
    rw [hmid.horder] at hx
    rcases List.mem_append.mp hx with hx' | hx'
    · exact hInv.hmem x hx'
    · rcases List.mem_singleton.mp hx' with rfl
      exact hun
  · -- dAt s2 start = 0
    rcases hmid.hchange start with ⟨heq, _⟩ | ⟨_, _, _, _, hval, hlt⟩
    · rw [heq]; exact hInv.hstart0
    · exfalso
      have h0 : (0 : WithTop α) ≤ dAt (visitNode w g s u) start := by
        rw [hval]
        exact add_nonneg (hInv.hnonneg u) (coe_w_nonneg w hw u start)
      rw [hInv.hstart0] at hlt
      exact absurd (lt_of_le_of_lt h0 hlt) (lt_irrefl _)
  · intro v
    rcases hmid.hchange v with ⟨heq, _⟩ | ⟨_, _, _, _, hval, _⟩
    · rw [heq]; exact hInv.hnonneg v
    · rw [hval]
      exact add_nonneg (hInv.hnonneg u) (coe_w_nonneg w hw u v)
  · -- soundness
    intro v hvlt hvtop
    rcases hmid.hchange v with ⟨heq, _⟩ | ⟨_, _, _, hedge, hval, _⟩
    · rw [heq] at hvtop ⊢
      exact hInv.hsound v hvlt hvtop
    · rw [hval] at hvtop ⊢
      have hutop : dAt s u ≠ ⊤ := by
        intro h
        rw [h, top_add] at hvtop
        exact hvtop rfl
      obtain ⟨p, hp, hpc⟩ := hInv.hsound u hun hutop
      refine ⟨p ++ [v], Walk.cons hp v hedge, ?_⟩
      have hlast : p.getLast hp.ne_nil = u := by
        have h1 := hp.getLast_eq
        rw [List.getLast?_eq_getLast p hp.ne_nil] at h1
        exact Option.some_inj.mp h1
      rw [pathCost_append_single w p hp.ne_nil v, hlast, WithTop.coe_add, hpc]
  · -- minimality on settled nodes
    intro x hx p hp
    rw [hmid.horder] at hx
    rcases List.mem_append.mp hx with hx' | hx'
    · rw [hmid.hfrozen x (List.mem_append.mpr (Or.inl hx'))]
      exact hInv.hminV x hx' p hp
    · rcases List.mem_singleton.mp hx' with rfl
      rw [hfrozu]
      exact hcrux x p hp hunv
  · -- relaxation of settled nodes
    intro x hx v hv
    rw [hmid.horder] at hx
    rcases List.mem_append.mp hx with hx' | hx'
    · rw [hmid.hfrozen x (List.mem_append.mpr (Or.inl hx'))]
      exact le_trans (hmid.hmono v) (hInv.hrelaxed x hx' v hv)
    · rcases List.mem_singleton.mp hx' with rfl
      rw [hfrozu]
      exact hbound v hv
  · -- parent structure
    intro v hvlt hvtop
    rcases hmid.hchange v with ⟨hdeq, hpeq⟩ | ⟨hnin, _, hpv, hedge, hval, _⟩
    · rw [hdeq] at hvtop
      have hold := hInv.hparent v hvlt hvtop
      constructor
      · intro hnone
        rw [hpeq] at hnone
        exact hold.1 hnone
      · intro pu hpu
        rw [hpeq] at hpu
        obtain ⟨hpuord, hpun, hputop, hpuedge, hpueq, hpuidx⟩ := hold.2 pu hpu
        have hfrozpu : dAt (visitNode w g s u) pu = dAt s pu :=
          hmid.hfrozen pu (List.mem_append.mpr (Or.inl hpuord))
        refine ⟨by rw [hmid.horder]; exact List.mem_append.mpr (Or.inl hpuord),
          hpun, by rw [hfrozpu]; exact hputop, hpuedge,
          by rw [hdeq, hfrozpu]; exact hpueq, ?_⟩
        intro hvin
        rw [hmid.horder] at hvin ⊢
        rcases List.mem_append.mp hvin with hvin' | hvin'
        · rw [List.indexOf_append_of_mem hpuord, List.indexOf_append_of_mem hvin']
          exact hpuidx hvin'
        · rcases List.mem_singleton.mp hvin' with rfl
          rw [List.indexOf_append_of_mem hpuord,
            List.indexOf_append_of_not_mem hunv]
          calc s.order.indexOf pu < s.order.length :=
                List.indexOf_lt_length.mpr hpuord
            _ ≤ s.order.length + [v].indexOf v := Nat.le_add_right _ _
    · constructor
      · intro hnone
        rw [hpv] at hnone
        exact Option.noConfusion hnone
      · intro pu hpu
        rw [hpv] at hpu
        rcases Option.some_inj.mp hpu with rfl
        have hutop : dAt s u ≠ ⊤ := by
          intro h
          rw [hval, h, top_add] at hvtop
          exact hvtop rfl
        refine ⟨by rw [hmid.horder]; exact List.mem_append.mpr (Or.inr (by simp)),
          hun, by rw [hfrozu]; exact hutop, hedge,
          by rw [hval, hfrozu], ?_⟩
        intro hvin
        rw [hmid.horder] at hvin
        exact absurd hvin hnin


end Dijkstra

namespace Dijkstra

variable {α : Type} [LinearOrderedAddCommMonoid α]

theorem dAt_init (n start v : Nat) :
    dAt (initState α n start) v =
      if v < n then (if v = start then (0 : WithTop α) else ⊤) else ⊤ := by
  unfold initState dAt
  by_cases hv : v < n
  · rw [if_pos hv]
    show ((List.range n).map _).getD v ⊤ = _
    rw [List.getD_eq_getElem?_getD, List.getElem?_map, List.getElem?_range hv]
    rfl
  · rw [if_neg hv]
    show ((List.range n).map _).getD v ⊤ = ⊤
    apply getD_eq_of_length_le
    rw [List.length_map, List.length_range]
    exact not_lt.mp hv

theorem pAt_init (n start v : Nat) : pAt (initState α n start) v = none := by
  unfold initState pAt
  show (List.replicate n none).getD v none = none
  by_cases hv : v < n
  · rw [List.getD_eq_getElem?_getD, List.getElem?_replicate_of_lt hv]
    rfl
  · apply getD_eq_of_length_le
    rw [List.length_replicate]
    exact not_lt.mp hv

theorem inv_init (w : Nat → Nat → α) (g : List (List Nat)) (start : Nat)
    (hstart : start < g.length) :
    Inv w g start (initState α g.length start) := by
  refine ⟨?_, ?_, ?_, ?_, ?_, ?_, ?_, ?_, ?_, ?_⟩
  · show ((List.range g.length).map _).length = g.length
    rw [List.length_map, List.length_range]
  · show (List.replicate g.length (none : Option Nat)).length = g.length
    rw [List.length_replicate]
  · exact List.nodup_nil
  · intro x hx; exact absurd hx (List.not_mem_nil x)
  · rw [dAt_init, if_pos hstart, if_pos rfl]
  · intro v
    rw [dAt_init]
    by_cases hv : v < g.length
    · rw [if_pos hv]
      by_cases hvs : v = start
      · rw [if_pos hvs]
      · rw [if_neg hvs]; exact le_top
    · rw [if_neg hv]; exact le_top
  · intro v hvlt hvtop
    rw [dAt_init, if_pos hvlt] at hvtop ⊢
    by_cases hvs : v = start
    · subst hvs
      rw [if_pos rfl]
      exact ⟨[v], Walk.nil v hvlt, by rw [show pathCost w [v] = 0 from rfl, WithTop.coe_zero]⟩
    · rw [if_neg hvs] at hvtop
      exact absurd rfl hvtop
  · intro x hx; exact absurd hx (List.not_mem_nil x)
  · intro x hx; exact absurd hx (List.not_mem_nil x)
  · intro v hvlt hvtop
    constructor
    · intro _
      rw [dAt_init, if_pos hvlt] at hvtop
      by_cases hvs : v = start
      · exact hvs
      · rw [if_neg hvs] at hvtop; exact absurd rfl hvtop
    · intro u hu
      rw [pAt_init] at hu
      exact Option.noConfusion hu

theorem inv_loop (w : Nat → Nat → α) (g : List (List Nat)) (start : Nat)
    (hw : ∀ a b, 0 ≤ w a b)
    (hgb : ∀ a b, Edge g a b → b < g.length)
    (hstart : start < g.length) :
    ∀ (k : Nat) (s : DState α), Inv w g start s → s.order.length + k ≤ g.length →
      Inv w g start (dijkstraLoop w g k s) ∧
        (dijkstraLoop w g k s).order.length = s.order.length + k := by
  intro k
  induction k with
  | zero => intro s hInv _; exact ⟨hInv, rfl⟩
  | succ k ih =>
    intro s hInv hlen
    have hne : unvisitedIdx s ≠ [] := by
      intro hcon
      have hall : ∀ i, i < g.length → i ∈ s.order := by
        intro i hi
        by_contra hnot
        have hiu : i ∈ unvisitedIdx s :=
          (mem_unvisitedIdx s i).mpr ⟨by rw [hInv.hdl]; exact hi, hnot⟩
        rw [hcon] at hiu
        exact absurd hiu (List.not_mem_nil i)
      have hsub : Finset.range g.length ⊆ s.order.toFinset := by
        intro i hi
        rw [List.mem_toFinset]
        exact hall i (Finset.mem_range.mp hi)
      have hcard := Finset.card_le_card hsub
      rw [Finset.card_range] at hcard
      have hc2 := List.toFinset_card_le s.order
      omega
    cases hargmin : argminD s.dist (unvisitedIdx s) with
    | none => exact absurd ((argminD_eq_none_iff _ _).mp hargmin) hne
    | some u =>
      obtain ⟨hInv2, horder⟩ :=
        inv_visit w g start u s hInv hw hgb hstart hargmin
      have hstep : dijkstraLoop w g (Nat.succ k) s =
          dijkstraLoop w g k (visitNode w g s u) := by
        simp only [dijkstraLoop, hargmin]
      rw [hstep]
      have hlen2 : (visitNode w g s u).order.length + k ≤ g.length := by
        rw [horder, List.length_append, List.length_singleton]
        omega
      obtain ⟨hI, hL⟩ := ih (visitNode w g s u) hInv2 hlen2
      refine ⟨hI, ?_⟩
      rw [hL, horder, List.length_append, List.length_singleton]
      omega

theorem final_state (w : Nat → Nat → α) (g : List (List Nat)) (start : Nat)
    (hw : ∀ a b, 0 ≤ w a b)
    (hgb : ∀ a b, Edge g a b → b < g.length)
    (hstart : start < g.length) :
    Inv w g start (dijkstraLoop w g g.length (initState α g.length start)) ∧
      (∀ v, v < g.length →
        v ∈ (dijkstraLoop w g g.length (initState α g.length start)).order) ∧
      (dijkstraLoop w g g.length (initState α g.length start)).order.length =
        g.length := by
  have h0 := inv_init w g start hstart
  have hlen0 : (initState α g.length start).order.length + g.length ≤ g.length := by
    show ([] : List Nat).length + g.length ≤ g.length
    simp
  obtain ⟨hI, hL⟩ := inv_loop w g start hw hgb hstart g.length _ h0 hlen0
  have hL' : (dijkstraLoop w g g.length (initState α g.length start)).order.length =
      g.length := by
    rw [hL]
    show ([] : List Nat).length + g.length = g.length
    simp
  refine ⟨hI, ?_, hL'⟩
  intro v hv
  set sf := dijkstraLoop w g g.length (initState α g.length start)
  have hsub : sf.order.toFinset ⊆ Finset.range g.length := by
    intro i hi
    exact Finset.mem_range.mpr (hI.hmem i (List.mem_toFinset.mp hi))
  have hcard : sf.order.toFinset.card = g.length := by
    rw [List.toFinset_card_of_nodup hI.hnodup, hL']
  have heq : sf.order.toFinset = Finset.range g.length :=
    Finset.eq_of_subset_of_card_le hsub (by rw [hcard, Finset.card_range])
  have : v ∈ sf.order.toFinset := by
    rw [heq]
    exact Finset.mem_range.mpr hv
  exact List.mem_toFinset.mp this

end Dijkstra

namespace Dijkstra

variable {α : Type} [LinearOrderedAddCommMonoid α]

theorem walkParent_spec (w : Nat → Nat → α) (g : List (List Nat)) (start : Nat)
    (sf : DState α) (hInv : Inv w g start sf)
    (hall : ∀ v, v < g.length → v ∈ sf.order) :
    ∀ (f : Nat) (v : Nat), v < g.length → dAt sf v ≠ ⊤ → sf.order.indexOf v < f →
      Walk g start v (walkParent sf.parent f v).reverse ∧
        ((pathCost w (walkParent sf.parent f v).reverse : α) : WithTop α) =
          dAt sf v := by
  intro f
  induction f with
  | zero => intro v _ _ h; omega
  | succ f ih =>
    intro v hvlt hvtop hidx
    have hpar := hInv.hparent v hvlt hvtop
    cases hpv : pAt sf v with
    | none =>
      have hvstart : v = start := hpar.1 hpv
      unfold pAt at hpv
      have hwp : walkParent sf.parent (Nat.succ f) v = [v] := by
        simp only [walkParent, hpv]
      rw [hwp]
      subst hvstart
      refine ⟨?_, ?_⟩
      · show Walk g v v [v].reverse
        rw [List.reverse_singleton]
        exact Walk.nil v hvlt
      · rw [List.reverse_singleton]
        rw [show pathCost w [v] = 0 from rfl, WithTop.coe_zero, hInv.hstart0]
    | some u =>
      obtain ⟨huord, hun, hutop, hedge, heq, hidxlt⟩ := hpar.2 u hpv
      have hvin : v ∈ sf.order := hall v hvlt
      have hidxu : sf.order.indexOf u < sf.order.indexOf v := hidxlt hvin
      unfold pAt at hpv
      have hwp : walkParent sf.parent (Nat.succ f) v =
          v :: walkParent sf.parent f u := by
        simp only [walkParent, hpv]
      have hidxuf : sf.order.indexOf u < f := by omega
      obtain ⟨hwalk, hcost⟩ := ih u hun hutop hidxuf
      rw [hwp, List.reverse_cons]
      have hlast : (walkParent sf.parent f u).reverse.getLast hwalk.ne_nil = u := by
        have h1 := hwalk.getLast_eq
        rw [List.getLast?_eq_getLast _ hwalk.ne_nil] at h1
        exact Option.some_inj.mp h1
      refine ⟨Walk.cons hwalk v hedge, ?_⟩
      rw [pathCost_append_single w _ hwalk.ne_nil v, hlast, WithTop.coe_add, hcost,
        heq]

theorem dijkstraRun_eq (w : Nat → Nat → α) (g : List (List Nat))
    (start goal : Nat) :
    dijkstraRun w g start goal =
      if h : dAt (dijkstraLoop w g g.length (initState α g.length start)) goal = ⊤
      then none
      else some
        ((walkParent (dijkstraLoop w g g.length (initState α g.length start)).parent
            g.length goal).reverse,
          (dAt (dijkstraLoop w g g.length (initState α g.length start)) goal).untop h)
      := rfl

/-- Full functional specification of the modelled Dijkstra run: a returned
pair is a walk from `start` to `goal` whose cost is the returned total and is
minimal among all walks; `none` is returned exactly on unreachable goals. -/
theorem dijkstraRun_spec (w : Nat → Nat → α) (g : List (List Nat))
    (start goal : Nat)
    (hw : ∀ a b, 0 ≤ w a b)
    (hgb : ∀ a b, Edge g a b → b < g.length)
    (hstart : start < g.length) (hgoal : goal < g.length) :
    (∀ p c, dijkstraRun w g start goal = some (p, c) →
      Walk g start goal p ∧ p.head? = some start ∧ p.getLast? = some goal ∧
        pathCost w p = c ∧ ∀ q, Walk g start goal q → c ≤ pathCost w q) ∧
    (dijkstraRun w g start goal = none → ∀ p, ¬ Walk g start goal p) := by
  obtain ⟨hI, hall, hlen⟩ := final_state w g start hw hgb hstart
  constructor
  · intro p c hpc
    rw [dijkstraRun_eq] at hpc
    by_cases htop :
        dAt (dijkstraLoop w g g.length (initState α g.length start)) goal = ⊤
    · rw [dif_pos htop] at hpc
      exact Option.noConfusion hpc
    · rw [dif_neg htop] at hpc
      have hpc' := Option.some_inj.mp hpc
      have hp : (walkParent
          (dijkstraLoop w g g.length (initState α g.length start)).parent
          g.length goal).reverse = p := congrArg Prod.fst hpc'
      have hc : (dAt (dijkstraLoop w g g.length (initState α g.length start))
          goal).untop htop = c := congrArg Prod.snd hpc'
      have hidx : (dijkstraLoop w g g.length
          (initState α g.length start)).order.indexOf goal < g.length := by
        have h1 := List.indexOf_lt_length.mpr (hall goal hgoal)
        rw [hlen] at h1
        exact h1
      obtain ⟨hwalk, hcost⟩ := walkParent_spec w g start _ hI hall g.length goal
        hgoal htop hidx
      rw [hp] at hwalk hcost
      have hcoe : dAt (dijkstraLoop w g g.length (initState α g.length start))
          goal = ((c : α) : WithTop α) := by
        rw [← hc]
        exact (WithTop.coe_untop _ htop).symm
      have hpcost : pathCost w p = c := by
        rw [hcoe] at hcost
        exact WithTop.coe_inj.mp hcost
      refine ⟨hwalk, hwalk.head_eq, hwalk.getLast_eq, hpcost, ?_⟩
      intro q hq
      have hmin := hI.hminV goal (hall goal hgoal) q hq
      rw [hcoe] at hmin
      exact WithTop.coe_le_coe.mp hmin
  · intro hnone p hp
    rw [dijkstraRun_eq] at hnone
    by_cases htop :
        dAt (dijkstraLoop w g g.length (initState α g.length start)) goal = ⊤
    · have hmin := hI.hminV goal (hall goal hgoal) p hp
      rw [htop] at hmin
      rw [top_le_iff] at hmin
      exact WithTop.coe_ne_top hmin
    · rw [dif_neg htop] at hnone
      exact Option.noConfusion hnone

end Dijkstra

/-- C1 : for the reachability graph built over the star list, a successful
`djikstras(nodes, graph, start, goal)` result is an ordered index sequence
beginning at `start` and ending at `goal` that walks the graph, whose total
cost — the sum of Euclidean distances between consecutive points — equals
the returned cost and is minimal over all walks of the graph from `start`
to `goal`; an unreachable goal yields failure (`none`), never a sentinel
cost. -/
theorem djikstras_shortest_path (nodes : List StarNode) (fuel : ℚ)
    (start goal : Nat) (hs : start < nodes.length) (hg : goal < nodes.length) :
    (∀ p c, djikstras nodes (build_graph nodes fuel) start goal = some (p, c) →
      Dijkstra.Walk (build_graph nodes fuel) start goal p ∧
        p.head? = some start ∧ p.getLast? = some goal ∧
        Dijkstra.pathCost (starDist nodes) p = c ∧
        ∀ q, Dijkstra.Walk (build_graph nodes fuel) start goal q →
          c ≤ Dijkstra.pathCost (starDist nodes) q) ∧
    (djikstras nodes (build_graph nodes fuel) start goal = none →
      ∀ p, ¬ Dijkstra.Walk (build_graph nodes fuel) start goal p) := by
  have hlen : (build_graph nodes fuel).length = nodes.length :=
    build_graph_length nodes fuel
  have hw : ∀ a b, 0 ≤ starDist nodes a b := fun a b => euclid_nonneg _ _
  have hgb : ∀ a b, Dijkstra.Edge (build_graph nodes fuel) a b →
      b < (build_graph nodes fuel).length := by
    intro a b hab
    rw [hlen]
    exact ((mem_build_graph nodes fuel a b).mp hab).2.1
  exact Dijkstra.dijkstraRun_spec (starDist nodes) (build_graph nodes fuel)
    start goal hw hgb (by rw [hlen]; exact hs) (by rw [hlen]; exact hg)

theorem djikstras_shortest_path_witness :
    (0 < ([⟨0, 0, 0, 0, "", 0⟩, ⟨1, 3, 0, 0, "", 0⟩] : List StarNode).length ∧
        1 < ([⟨0, 0, 0, 0, "", 0⟩, ⟨1, 3, 0, 0, "", 0⟩] : List StarNode).length) ∧
      ((∀ p c, djikstras [⟨0, 0, 0, 0, "", 0⟩, ⟨1, 3, 0, 0, "", 0⟩]
          (build_graph [⟨0, 0, 0, 0, "", 0⟩, ⟨1, 3, 0, 0, "", 0⟩] 5) 0 1 =
            some (p, c) →
        Dijkstra.Walk (build_graph [⟨0, 0, 0, 0, "", 0⟩, ⟨1, 3, 0, 0, "", 0⟩] 5)
            0 1 p ∧
          p.head? = some 0 ∧ p.getLast? = some 1 ∧
          Dijkstra.pathCost (starDist [⟨0, 0, 0, 0, "", 0⟩, ⟨1, 3, 0, 0, "", 0⟩]) p
              = c ∧
          ∀ q, Dijkstra.Walk
              (build_graph [⟨0, 0, 0, 0, "", 0⟩, ⟨1, 3, 0, 0, "", 0⟩] 5) 0 1 q →
            c ≤ Dijkstra.pathCost
              (starDist [⟨0, 0, 0, 0, "", 0⟩, ⟨1, 3, 0, 0, "", 0⟩]) q) ∧
      (djikstras [⟨0, 0, 0, 0, "", 0⟩, ⟨1, 3, 0, 0, "", 0⟩]
          (build_graph [⟨0, 0, 0, 0, "", 0⟩, ⟨1, 3, 0, 0, "", 0⟩] 5) 0 1 = none →
        ∀ p, ¬ Dijkstra.Walk
          (build_graph [⟨0, 0, 0, 0, "", 0⟩, ⟨1, 3, 0, 0, "", 0⟩] 5) 0 1 p)) :=
  ⟨⟨by norm_num, by norm_num⟩,
    djikstras_shortest_path [⟨0, 0, 0, 0, "", 0⟩, ⟨1, 3, 0, 0, "", 0⟩] 5 0 1
      (by norm_num) (by norm_num)⟩
